import Mathlib

/-!
Verification development for the fuzzuf repository core
(Nautilus coverage queue, Nautilus tree mutator, VUzzer dry-run and
seed-filling loop).

The queue section is a shallow embedding of
`src/algorithms/nautilus/fuzzer/queue.cpp`: the `std::unordered_map`
inverted index `_bit_to_inputs` is represented as an association list
from a coverage-bit index to its posting list, the sparse coverage
bitmap `all_bits` as a `List Nat` of byte values (a bit is set iff the
byte is non-zero), and file-system effects as an explicit list of
`FileOp` values.  A derivation tree stored in a `QueueItem` appears
only through the byte string that `UnparseTo` produces for it, so items
carry that string directly.
-/

namespace FuzzufQueue

/-- Posting-list index: the model of `std::unordered_map<size_t,
std::vector<size_t>> _bit_to_inputs`, as an association list from a
coverage-bit index to the list of input ids that trigger that bit. -/
abbrev Index := List (Nat × List Nat)

/-- Model of `_bit_to_inputs.find(b)`: first binding of key `b`. -/
def findList : Index → Nat → Option (List Nat)
  | [], _ => none
  | (k, v) :: rest, b => if k = b then some v else findList rest b

/-- Model of `_bit_to_inputs[b].push_back(id)` for an existing key `b`:
append `id` to the posting list of the first binding of `b`. -/
def appendAt : Index → Nat → Nat → Index
  | [], _, _ => []
  | (k, v) :: rest, b, id =>
      if k = b then (k, v ++ [id]) :: rest else (k, v) :: appendAt rest b id

/-- Byte `i` of the sparse coverage map `all_bits` (0 when out of
range, as reading a missing entry of the fixed-size bitmap). -/
def bitAt (allBits : List Nat) (i : Nat) : Nat := allBits.getD i 0

/-- One iteration of the insertion loop of `Queue::Add` (queue.cpp lines
48-57) and of `Queue::Finished` (lines 167-176): if byte `i` of the
coverage map is non-zero, create the posting list of bit `i` when the
bit is fresh and then append `id` to it. -/
def regStep (allBits : List Nat) (id : Nat) (m : Index) (i : Nat) : Index :=
  if bitAt allBits i ≠ 0 then
    match findList m i with
    | none => m ++ [(i, [id])]
    | some _ => appendAt m i id
  else m

/-- The whole insertion loop: iterate `regStep` over all byte indices of
the coverage map. -/
def registerBits (allBits : List Nat) (id : Nat) (m : Index) : Index :=
  (List.range allBits.length).foldl (regStep allBits id) m

/-- The interestingness gate of `Queue::Add` and `Queue::Finished`
(queue.cpp lines 37-45 and 149-156).  The source initializes
`all_zero = true` and clears it on the first byte that is non-zero and
not yet a key of `_bit_to_inputs`; this function is the negation
`¬ all_zero`, i.e. "some fresh bit exists". -/
def hasFreshBit (m : Index) (allBits : List Nat) : Bool :=
  (List.range allBits.length).any
    (fun i => bitAt allBits i != 0 && (findList m i).isNone)

/-- The `fresh_bits` set computed by `Queue::Add`: indices whose byte is
non-zero and that are not yet keys of the index. -/
def freshBitsOf (m : Index) (allBits : List Nat) : List Nat :=
  (List.range allBits.length).filter
    (fun i => bitAt allBits i != 0 && (findList m i).isNone)

/-- Model of `QueueItem` (fields in the order of the constructor call in
`Queue::Add`); the derivation tree is represented by its unparsed byte
string. -/
structure QueueItem where
  id : Nat
  tree : String
  fresh : List Nat
  allBits : List Nat
  er : Nat
  time : Nat
deriving DecidableEq

/-- File-system effects performed by the queue. -/
inductive FileOp where
  | write (path : String) (content : String) (mode : Nat)
  | delete (path : String)
deriving DecidableEq

/-- State of the Nautilus corpus queue (`Queue` in queue.cpp). -/
structure QueueState where
  workDir : String
  currentId : Nat
  inputs : List QueueItem
  processed : List QueueItem
  bitToInputs : Index
deriving DecidableEq

/-- Left-pad the decimal representation of `n` with zeros to `w`
characters, as the `%0Nld`/`%0Nu` format directives do. -/
def padNum (w n : Nat) : String :=
  let s := toString n
  String.mk (List.replicate (w - s.length) '0') ++ s

/-- Path built by `Queue::Add`:
`work_dir/queue/id:NNNNNNNNN,er:E` with a nine-digit zero-padded id. -/
def queuePath (workDir : String) (id er : Nat) : String :=
  workDir ++ "/queue/id:" ++ padNum 9 id ++ ",er:" ++ toString er

/-- Path deleted by `Queue::Finished`:
`work_dir/outputs/queue/id:NNNNNNNNN,er:E`. -/
def outputsPath (workDir : String) (id er : Nat) : String :=
  workDir ++ "/outputs/queue/id:" ++ padNum 9 id ++ ",er:" ++ toString er

/-- `std::numeric_limits<size_t>::max()` on the 64-bit target. -/
def sizeMax : Nat := 2 ^ 64 - 1

/-- The id bump at the end of `Queue::Add` (wraps to 0 at saturation). -/
def nextId (id : Nat) : Nat := if id = sizeMax then 0 else id + 1

/-- Result of `Queue::Add`: successor state, file effects, and the
exception raised, if any. -/
structure AddOut where
  st : QueueState
  ops : List FileOp
  err : Option String
deriving DecidableEq

/-- Shallow embedding of `Queue::Add` (queue.cpp lines 31-94).
`treeBuf` is the byte string that `tree.UnparseTo` produces; `canWrite`
tells whether `Util::OpenFile` succeeds (it returns -1 otherwise, and
`Add` throws `unable_to_create_file` after the index was already
updated). -/
def QueueAdd (s : QueueState) (treeBuf : String) (allBits : List Nat)
    (er time : Nat) (canWrite : Bool) : AddOut :=
  if hasFreshBit s.bitToInputs allBits then
    let fresh := freshBitsOf s.bitToInputs allBits
    let m2 := registerBits allBits s.currentId s.bitToInputs
    let path := queuePath s.workDir s.currentId er
    if canWrite then
      { st := { s with
                  bitToInputs := m2
                  inputs := s.inputs ++
                    [⟨s.currentId, treeBuf, fresh, allBits, er, time⟩]
                  currentId := nextId s.currentId }
        ops := [FileOp.write path treeBuf 384]
        err := none }
    else
      { st := { s with bitToInputs := m2 }
        ops := []
        err := some "unable_to_create_file" }
  else
    { st := s, ops := [], err := none }

/-- The purge loop of `Queue::Pop` (queue.cpp lines 109-129): remove
every occurrence of `id` from every posting list and drop the entries
whose list becomes empty. -/
def purgeId (m : Index) (id : Nat) : Index :=
  m.filterMap (fun kv =>
    if kv.2.filter (fun x => x ≠ id) = [] then none
    else some (kv.1, kv.2.filter (fun x => x ≠ id)))

/-- Shallow embedding of `Queue::Pop` (queue.cpp lines 101-132): remove
and return the last element of `_inputs` and purge its id from the
index.  `none` models the `DEBUG_ASSERT(!IsEmpty())` precondition
violation. -/
def QueuePop (s : QueueState) : Option (QueueItem × QueueState) :=
  match s.inputs.getLast? with
  | none => none
  | some it =>
      some (it, { s with
                    inputs := s.inputs.dropLast
                    bitToInputs := purgeId s.bitToInputs it.id })

/-- Shallow embedding of `Queue::Finished` (queue.cpp lines 148-179):
re-check the gate; with no fresh bit left, delete the mirror file and
drop the item; otherwise re-register its bits and push it into
`_processed`. -/
def QueueFinished (s : QueueState) (it : QueueItem) :
    QueueState × List FileOp :=
  if hasFreshBit s.bitToInputs it.allBits then
    ({ s with
         bitToInputs := registerBits it.allBits it.id s.bitToInputs
         processed := s.processed ++ [it] }, [])
  else
    (s, [FileOp.delete (outputsPath s.workDir it.id it.er)])

/-- Shallow embedding of `Queue::NewRound` (queue.cpp lines 185-188):
`_inputs.insert(_inputs.end(), _processed.begin(), _processed.end())`.
Note that the source never clears `_processed`. -/
def QueueNewRound (s : QueueState) : QueueState :=
  { s with inputs := s.inputs ++ s.processed }

/-- Keys of the inverted index, in binding order. -/
def keysOf (m : Index) : List Nat := m.map Prod.fst

theorem findList_eq_none_iff (m : Index) (b : Nat) :
    findList m b = none ↔ b ∉ keysOf m := by
  induction m with
  | nil => simp [findList, keysOf]
  | cons kv rest ih =>
      obtain ⟨k, v⟩ := kv
      by_cases hk : k = b
      · subst hk; simp [findList, keysOf]
      · simp [findList, hk, keysOf, Ne.symm hk] at ih ⊢
        exact ih

theorem findList_append (m m2 : Index) (b : Nat) :
    findList (m ++ m2) b =
      match findList m b with
      | some v => some v
      | none => findList m2 b := by
  induction m with
  | nil => simp [findList]
  | cons kv rest ih =>
      obtain ⟨k, v⟩ := kv
      by_cases hk : k = b <;> simp [findList, hk, ih]

theorem findList_appendAt_self (m : Index) (b id : Nat) (v : List Nat)
    (h : findList m b = some v) :
    findList (appendAt m b id) b = some (v ++ [id]) := by
  induction m with
  | nil => simp [findList] at h
  | cons kv rest ih =>
      obtain ⟨k, w⟩ := kv
      by_cases hk : k = b
      · subst hk
        simp [findList] at h
        simp [appendAt, findList, h]
      · simp [findList, hk] at h
        simp [appendAt, findList, hk, ih h]

theorem findList_appendAt_ne (m : Index) (b id c : Nat) (hne : c ≠ b) :
    findList (appendAt m b id) c = findList m c := by
  induction m with
  | nil => simp [appendAt]
  | cons kv rest ih =>
      obtain ⟨k, w⟩ := kv
      by_cases hk : k = b
      · subst hk
        simp [appendAt, findList, Ne.symm hne]
      · by_cases hc : k = c
        · subst hc
          simp [appendAt, findList, hk, hne]
        · simp [appendAt, findList, hk, hc, ih]

theorem keysOf_appendAt (m : Index) (b id : Nat) :
    keysOf (appendAt m b id) = keysOf m := by
  induction m with
  | nil => simp [appendAt, keysOf]
  | cons kv rest ih =>
      obtain ⟨k, w⟩ := kv
      by_cases hk : k = b
      · simp [appendAt, keysOf, hk]
      · simp [appendAt, keysOf, hk] at ih ⊢
        exact ih

theorem findList_regStep_self (allBits : List Nat) (id : Nat) (m : Index)
    (i : Nat) :
    findList (regStep allBits id m i) i =
      if bitAt allBits i ≠ 0 then
        some ((findList m i).getD [] ++ [id])
      else findList m i := by
  cases h : findList m i with
  | none =>
      by_cases hb : bitAt allBits i = 0
      · simp [regStep, hb, h]
      · simp [regStep, hb, h, findList_append, findList]
  | some v =>
      by_cases hb : bitAt allBits i = 0
      · simp [regStep, hb, h]
      · simp [regStep, hb, h, findList_appendAt_self m i id v h]

theorem findList_regStep_ne (allBits : List Nat) (id : Nat) (m : Index)
    (i c : Nat) (hne : c ≠ i) :
    findList (regStep allBits id m i) c = findList m c := by
  cases h : findList m i with
  | none =>
      by_cases hb : bitAt allBits i = 0
      · simp [regStep, hb, h]
      · have he : regStep allBits id m i = m ++ [(i, [id])] := by
          simp [regStep, hb, h]
        rw [he, findList_append]
        cases hfc : findList m c with
        | none => simp [findList, Ne.symm hne]
        | some v => rfl
  | some v =>
      by_cases hb : bitAt allBits i = 0
      · simp [regStep, hb, h]
      · simp [regStep, hb, h, findList_appendAt_ne m i id c hne]

theorem keysOf_regStep (allBits : List Nat) (id : Nat) (m : Index) (i : Nat) :
    keysOf (regStep allBits id m i) = keysOf m ∨
      (keysOf (regStep allBits id m i) = keysOf m ++ [i] ∧ i ∉ keysOf m) := by
  cases h : findList m i with
  | none =>
      by_cases hb : bitAt allBits i = 0
      · left; simp [regStep, hb, h]
      · right
        refine ⟨?_, (findList_eq_none_iff m i).1 h⟩
        simp [regStep, hb, h, keysOf]
  | some v =>
      by_cases hb : bitAt allBits i = 0
      · left; simp [regStep, hb, h]
      · left
        have : regStep allBits id m i = appendAt m i id := by
          simp [regStep, hb, h]
        rw [this]
        exact keysOf_appendAt m i id

theorem keysOf_regStep_nodup (allBits : List Nat) (id : Nat) (m : Index)
    (i : Nat) (h : (keysOf m).Nodup) :
    (keysOf (regStep allBits id m i)).Nodup := by
  rcases keysOf_regStep allBits id m i with heq | ⟨heq, hni⟩
  · rw [heq]; exact h
  · rw [heq]
    simp [List.nodup_append, h, hni]

/-- Extensional effect of the insertion loop over a duplicate-free list
of byte indices: a key receives `id` appended (with a fresh list created
when needed) exactly when its index is visited and its byte is
non-zero. -/
theorem findList_regFold (allBits : List Nat) (id : Nat) :
    ∀ (idxs : List Nat), idxs.Nodup → ∀ (m : Index) (b : Nat),
      findList (idxs.foldl (regStep allBits id) m) b =
        if b ∈ idxs ∧ bitAt allBits b ≠ 0 then
          some ((findList m b).getD [] ++ [id])
        else findList m b := by
  intro idxs
  induction idxs with
  | nil => intro _ m b; simp
  | cons i rest ih =>
      intro hnd m b
      have hnd2 : rest.Nodup := hnd.of_cons
      have hni : i ∉ rest := by
        simp [List.nodup_cons] at hnd; exact hnd.1
      simp only [List.foldl_cons]
      rw [ih hnd2 (regStep allBits id m i) b]
      by_cases hb : b = i
      · subst hb
        rw [if_neg (fun hc => hni hc.1), findList_regStep_self]
        simp
      · have hmem : b ∈ i :: rest ↔ b ∈ rest := by simp [hb]
        rw [findList_regStep_ne allBits id m i b hb]
        simp only [hmem]

theorem findList_registerBits (allBits : List Nat) (id : Nat) (m : Index)
    (b : Nat) :
    findList (registerBits allBits id m) b =
      if bitAt allBits b ≠ 0 then
        some ((findList m b).getD [] ++ [id])
      else findList m b := by
  unfold registerBits
  rw [findList_regFold allBits id (List.range allBits.length)
    (List.nodup_range allBits.length) m b]
  by_cases hb : bitAt allBits b ≠ 0
  · have hlt : b < allBits.length := by
      by_contra hge
      exact hb (List.getD_eq_default _ _ (Nat.le_of_not_lt hge))
    simp [hb, List.mem_range, hlt]
  · simp [hb]

theorem keysOf_registerBits_nodup (allBits : List Nat) (id : Nat)
    (m : Index) (h : (keysOf m).Nodup) :
    (keysOf (registerBits allBits id m)).Nodup := by
  unfold registerBits
  generalize List.range allBits.length = idxs
  induction idxs generalizing m with
  | nil => exact h
  | cons i rest ih =>
      simp only [List.foldl_cons]
      exact ih _ (keysOf_regStep_nodup allBits id m i h)

/-- With duplicate-free keys, membership of a binding in the index is
the same as a successful lookup. -/
theorem mem_iff_findList (m : Index) (h : (keysOf m).Nodup) (b : Nat)
    (l : List Nat) : (b, l) ∈ m ↔ findList m b = some l := by
  induction m with
  | nil => simp [findList]
  | cons kv rest ih =>
      obtain ⟨k, v⟩ := kv
      have hrest : (keysOf rest).Nodup := by
        simp [keysOf, List.nodup_cons] at h; exact h.2
      have hk : k ∉ keysOf rest := by
        simp [keysOf, List.nodup_cons] at h
        simpa [keysOf] using h.1
      by_cases hkb : k = b
      · subst hkb
        simp only [findList, if_pos rfl, List.mem_cons]
        constructor
        · rintro (heq | hmem)
          · rw [Prod.mk.injEq] at heq
            simp [heq.2]
          · exfalso
            exact hk (by simpa [keysOf] using List.mem_map_of_mem Prod.fst hmem)
        · rintro heq
          left
          simp at heq
          rw [heq]
      · simp only [findList, if_neg hkb, List.mem_cons]
        rw [← ih hrest]
        constructor
        · rintro (heq | hmem)
          · exfalso
            rw [Prod.mk.injEq] at heq
            exact hkb heq.1.symm
          · exact hmem
        · intro hmem; right; exact hmem

theorem hasFreshBit_iff (m : Index) (allBits : List Nat) :
    hasFreshBit m allBits = true ↔
      ∃ i, i < allBits.length ∧ bitAt allBits i ≠ 0 ∧ findList m i = none := by
  unfold hasFreshBit
  simp [List.any_eq_true, List.mem_range, Option.isNone_iff_eq_none,
    and_assoc]

theorem hasFreshBit_eq_false_iff (m : Index) (allBits : List Nat) :
    hasFreshBit m allBits = false ↔
      ∀ i, i < allBits.length → bitAt allBits i ≠ 0 →
        (findList m i).isSome := by
  rw [← Bool.not_eq_true, hasFreshBit_iff]
  push_neg
  constructor
  · intro h i hi hb
    cases hf : findList m i with
    | none => exact absurd hf (h i hi hb)
    | some v => simp
  · intro h i hi hb
    have := h i hi hb
    intro he
    rw [he] at this
    simp at this

theorem mem_purgeId (m : Index) (id b : Nat) (l : List Nat)
    (h : (b, l) ∈ purgeId m id) :
    ∃ v, (b, v) ∈ m ∧ l = v.filter (fun x => x ≠ id) ∧ l ≠ [] := by
  unfold purgeId at h
  rw [List.mem_filterMap] at h
  obtain ⟨kv, hkv, heq⟩ := h
  obtain ⟨k, v⟩ := kv
  by_cases hv : v.filter (fun x => x ≠ id) = []
  · rw [if_pos hv] at heq
    cases heq
  · rw [if_neg hv, Option.some.injEq, Prod.mk.injEq] at heq
    refine ⟨v, ?_, heq.2.symm, ?_⟩
    · rw [← heq.1]
      exact hkv
    · rw [← heq.2]
      exact hv

theorem keysOf_purgeId_sublist (m : Index) (id : Nat) :
    (keysOf (purgeId m id)).Sublist (keysOf m) := by
  induction m with
  | nil => simp [purgeId, keysOf]
  | cons kv rest ih =>
      obtain ⟨k, v⟩ := kv
      by_cases hv : v.filter (fun x => x ≠ id) = []
      · have hstep : purgeId ((k, v) :: rest) id = purgeId rest id := by
          unfold purgeId
          rw [List.filterMap_cons, if_pos hv]
        rw [hstep]
        exact ih.trans (List.sublist_cons_self k (keysOf rest))
      · have hstep : purgeId ((k, v) :: rest) id =
            (k, v.filter (fun x => x ≠ id)) :: purgeId rest id := by
          unfold purgeId
          rw [List.filterMap_cons, if_neg hv]
        rw [hstep]
        exact List.Sublist.cons₂ k ih

/-- Claim C2: the interestingness gate of `Queue::Add`.  If every
non-zero byte of `all_bits` is already a key of `_bit_to_inputs` (in
particular when `all_bits` is all zero), `Add` writes no file, raises
nothing, and leaves the whole queue state (inputs, index, current id)
unchanged; conversely, whenever `Add` keeps the input, some non-zero
bit index of `all_bits` was not yet a key of the index. -/
theorem c2_interestingness_gate (s : QueueState) (treeBuf : String)
    (allBits : List Nat) (er time : Nat) (canWrite : Bool) :
    ((∀ i, i < allBits.length → bitAt allBits i ≠ 0 →
        (findList s.bitToInputs i).isSome) →
      QueueAdd s treeBuf allBits er time canWrite =
        { st := s, ops := [], err := none }) ∧
    ((QueueAdd s treeBuf allBits er time canWrite).st.inputs ≠ s.inputs →
      ∃ i, i < allBits.length ∧ bitAt allBits i ≠ 0 ∧
        findList s.bitToInputs i = none) := by
  constructor
  · intro hall
    have hg : hasFreshBit s.bitToInputs allBits = false :=
      (hasFreshBit_eq_false_iff s.bitToInputs allBits).2 hall
    unfold QueueAdd
    rw [hg]
    simp
  · intro hch
    by_cases hg : hasFreshBit s.bitToInputs allBits = true
    · exact (hasFreshBit_iff s.bitToInputs allBits).1 hg
    · exfalso
      apply hch
      unfold QueueAdd
      rw [Bool.not_eq_true] at hg
      rw [hg]
      simp

/-- A concrete instance of C2's gate at work. -/
theorem c2_interestingness_gate_witness :
    QueueAdd ⟨"wd", 0, [], [], []⟩ "abc" [0, 0, 0, 0] 0 7 true =
      { st := ⟨"wd", 0, [], [], []⟩, ops := [], err := none } :=
  (c2_interestingness_gate ⟨"wd", 0, [], [], []⟩ "abc" [0, 0, 0, 0] 0 7
    true).1 (by decide)

/-- Claim C4: `Queue::Pop` on a non-empty queue removes and returns the
last element of `_inputs`; afterwards the returned id is in no posting
list and no key of the index maps to an empty list. -/
theorem c4_pop_postcondition (s : QueueState) (h : s.inputs ≠ []) :
    ∃ s2, QueuePop s = some (s.inputs.getLast h, s2) ∧
      s2.inputs = s.inputs.dropLast ∧
      s2.processed = s.processed ∧
      ∀ b l, (b, l) ∈ s2.bitToInputs →
        (s.inputs.getLast h).id ∉ l ∧ l ≠ [] := by
  refine ⟨{ s with
              inputs := s.inputs.dropLast
              bitToInputs := purgeId s.bitToInputs
                (s.inputs.getLast h).id }, ?_, rfl, rfl, ?_⟩
  · unfold QueuePop
    rw [List.getLast?_eq_getLast s.inputs h]
  · intro b l hmem
    obtain ⟨v, _, hfil, hne⟩ :=
      mem_purgeId s.bitToInputs (s.inputs.getLast h).id b l hmem
    refine ⟨?_, hne⟩
    intro hid
    rw [hfil] at hid
    have := List.of_mem_filter hid
    simp at this

/-- A concrete instance of C4. -/
theorem c4_pop_postcondition_witness :
    ∃ s2, QueuePop ⟨"wd", 2, [⟨0, "a", [1], [0, 5], 0, 0⟩,
          ⟨1, "b", [2], [0, 0, 3], 0, 0⟩], [], [(1, [0]), (2, [1])]⟩ =
        some (⟨1, "b", [2], [0, 0, 3], 0, 0⟩, s2) ∧
      s2.inputs = [⟨0, "a", [1], [0, 5], 0, 0⟩] ∧
      s2.processed = [] ∧
      ∀ b l, (b, l) ∈ s2.bitToInputs → (1 : Nat) ∉ l ∧ l ≠ [] :=
  c4_pop_postcondition ⟨"wd", 2, [⟨0, "a", [1], [0, 5], 0, 0⟩,
    ⟨1, "b", [2], [0, 0, 3], 0, 0⟩], [], [(1, [0]), (2, [1])]⟩ (by decide)

/-- Claim C5: `Queue::Finished` is a two-way branch on the re-checked
gate.  With no fresh bit left it deletes
`work_dir/outputs/queue/id:NNNNNNNNN,er:E` and drops the item, touching
nothing else; otherwise it appends `item.id` to the posting list of
every non-zero bit of `item.all_bits` (creating lists for fresh bits),
leaves the other keys alone, and appends the item to `_processed`. -/
theorem c5_finished_branches (s : QueueState) (it : QueueItem) :
    ((∀ i, i < it.allBits.length → bitAt it.allBits i ≠ 0 →
        (findList s.bitToInputs i).isSome) →
      QueueFinished s it =
        (s, [FileOp.delete (outputsPath s.workDir it.id it.er)])) ∧
    ((∃ i, i < it.allBits.length ∧ bitAt it.allBits i ≠ 0 ∧
        findList s.bitToInputs i = none) →
      (QueueFinished s it).2 = [] ∧
      (QueueFinished s it).1.inputs = s.inputs ∧
      (QueueFinished s it).1.processed = s.processed ++ [it] ∧
      (QueueFinished s it).1.currentId = s.currentId ∧
      (∀ b, bitAt it.allBits b ≠ 0 →
        findList (QueueFinished s it).1.bitToInputs b =
          some ((findList s.bitToInputs b).getD [] ++ [it.id])) ∧
      (∀ b, bitAt it.allBits b = 0 →
        findList (QueueFinished s it).1.bitToInputs b =
          findList s.bitToInputs b)) := by
  constructor
  · intro hall
    have hg : hasFreshBit s.bitToInputs it.allBits = false :=
      (hasFreshBit_eq_false_iff s.bitToInputs it.allBits).2 hall
    unfold QueueFinished
    rw [hg]
    simp
  · intro hex
    have hg : hasFreshBit s.bitToInputs it.allBits = true :=
      (hasFreshBit_iff s.bitToInputs it.allBits).2 hex
    unfold QueueFinished
    rw [hg, if_pos rfl]
    refine ⟨rfl, rfl, rfl, rfl, ?_, ?_⟩
    · intro b hb
      rw [findList_registerBits]
      simp [hb]
    · intro b hb
      rw [findList_registerBits]
      simp [hb]

/-- A concrete instance of C5, one per branch of the gate. -/
theorem c5_finished_branches_witness :
    (QueueFinished ⟨"wd", 5, [], [], [(1, [0])]⟩ ⟨3, "t", [], [0, 9], 2, 0⟩ =
      (⟨"wd", 5, [], [], [(1, [0])]⟩,
        [FileOp.delete "wd/outputs/queue/id:000000003,er:2"])) ∧
    (QueueFinished ⟨"wd", 5, [], [], []⟩ ⟨3, "t", [], [0, 9], 2, 0⟩).1.processed
        = [⟨3, "t", [], [0, 9], 2, 0⟩] := by
  constructor
  · exact (c5_finished_branches ⟨"wd", 5, [], [], [(1, [0])]⟩
      ⟨3, "t", [], [0, 9], 2, 0⟩).1 (by decide)
  · have := (c5_finished_branches ⟨"wd", 5, [], [], []⟩
      ⟨3, "t", [], [0, 9], 2, 0⟩).2 ⟨1, by decide, by decide, by decide⟩
    rw [this.2.2.1]
    rfl

/-- Concrete state exhibiting the `NewRound` divergence: one processed
item, nothing pending. -/
def c3state : QueueState :=
  ⟨"wd", 1, [], [⟨0, "x", [1], [0, 7], 0, 0⟩], [(1, [0])]⟩

/-- Claim C3 names a code bug: `Queue::NewRound` copies `_processed`
into `_inputs` but never clears `_processed` (queue.cpp lines 185-188),
so the processed list is not emptied and a second `NewRound` duplicates
the item, contradicting the specified move-exactly-once semantics. -/
theorem c3_newround_keeps_processed :
    (QueueNewRound c3state).processed = [⟨0, "x", [1], [0, 7], 0, 0⟩] ∧
    (QueueNewRound c3state).inputs = [⟨0, "x", [1], [0, 7], 0, 0⟩] ∧
    (QueueNewRound (QueueNewRound c3state)).inputs =
      [⟨0, "x", [1], [0, 7], 0, 0⟩, ⟨0, "x", [1], [0, 7], 0, 0⟩] :=
  ⟨rfl, rfl, rfl⟩

/-- Operations of claim C1's histories.  `add` is a successful
`Queue::Add` (the file write succeeds; the failing write is the subject
of claim C10), `pop` hands the popped item to the caller, `fin n`
returns the `n`-th caller-held item through `Queue::Finished`, and
`newRound` is `Queue::NewRound`. -/
inductive QOp where
  | add (treeBuf : String) (allBits : List Nat) (er : Nat) (time : Nat)
  | pop
  | fin (n : Nat)
  | newRound

/-- Queue state plus the popped items currently owned by the caller
(`Pop` transfers ownership; `Finished` takes such an item back). -/
structure QSys where
  q : QueueState
  held : List QueueItem

/-- One operation of a history. -/
def stepQ (s : QSys) : QOp → QSys
  | .add buf bits er t => { s with q := (QueueAdd s.q buf bits er t true).st }
  | .pop =>
      match QueuePop s.q with
      | some (it, q2) => ⟨q2, s.held ++ [it]⟩
      | none => s
  | .fin n =>
      if h : n < s.held.length then
        ⟨(QueueFinished s.q (s.held.get ⟨n, h⟩)).1, s.held.eraseIdx n⟩
      else s
  | .newRound => { s with q := QueueNewRound s.q }

/-- The empty queue. -/
def initQ (wd : String) : QSys := ⟨⟨wd, 0, [], [], []⟩, []⟩

/-- Run a history from the empty queue. -/
def runQ (wd : String) (ops : List QOp) : QSys := ops.foldl stepQ (initQ wd)

/-- A posting list `l` of bit `b` is sound for an item set: it is
non-empty and each of its ids belongs to an item with that coverage
bit set. -/
def SoundList (items : List QueueItem) (b : Nat) (l : List Nat) : Prop :=
  l ≠ [] ∧ ∀ id ∈ l, ∃ it ∈ items, it.id = id ∧ bitAt it.allBits b ≠ 0

/-- The inverted-index invariant of the spec (§8, invariant 1). -/
def IndexSound (q : QueueState) : Prop :=
  ∀ b l, (b, l) ∈ q.bitToInputs → SoundList (q.inputs ++ q.processed) b l

/-- Strengthened invariant carried through the induction: key
uniqueness of the association list plus index soundness. -/
def QInv (q : QueueState) : Prop :=
  (keysOf q.bitToInputs).Nodup ∧ IndexSound q

theorem SoundList.mono {items items2 : List QueueItem} {b : Nat}
    {l : List Nat} (hsub : ∀ x, x ∈ items → x ∈ items2)
    (h : SoundList items b l) : SoundList items2 b l := by
  refine ⟨h.1, ?_⟩
  intro id hid
  obtain ⟨it, hit, heq, hbit⟩ := h.2 id hid
  exact ⟨it, hsub it hit, heq, hbit⟩

/-- Re-registering a coverage map keeps the index sound when the item
carrying that map and that id is present in the item set. -/
theorem register_sound (m : Index) (hnd : (keysOf m).Nodup)
    (items2 : List QueueItem) (it : QueueItem) (hit : it ∈ items2)
    (hs : ∀ b l, (b, l) ∈ m → SoundList items2 b l) :
    ∀ b l, (b, l) ∈ registerBits it.allBits it.id m →
      SoundList items2 b l := by
  intro b l hmem
  have hnd2 : (keysOf (registerBits it.allBits it.id m)).Nodup :=
    keysOf_registerBits_nodup it.allBits it.id m hnd
  have hfind := (mem_iff_findList _ hnd2 b l).1 hmem
  rw [findList_registerBits] at hfind
  by_cases hb : bitAt it.allBits b ≠ 0
  · rw [if_pos hb] at hfind
    rw [Option.some.injEq] at hfind
    cases hold : findList m b with
    | none =>
        rw [hold] at hfind
        simp at hfind
        refine ⟨?_, ?_⟩
        · rw [← hfind]; simp
        · intro id hid
          rw [← hfind] at hid
          simp at hid
          exact ⟨it, hit, by rw [hid], hb⟩
    | some v =>
        rw [hold] at hfind
        simp at hfind
        have hv : SoundList items2 b v :=
          hs b v ((mem_iff_findList m hnd b v).2 hold)
        refine ⟨?_, ?_⟩
        · rw [← hfind]; simp
        · intro id hid
          rw [← hfind] at hid
          rw [List.mem_append] at hid
          rcases hid with hid | hid
          · exact hv.2 id hid
          · simp at hid
            exact ⟨it, hit, by rw [hid], hb⟩
  · rw [if_neg hb] at hfind
    exact hs b l ((mem_iff_findList m hnd b l).2 hfind)

theorem stepQ_preserves (s : QSys) (op : QOp) (h : QInv s.q) :
    QInv (stepQ s op).q := by
  obtain ⟨hnd, hsound⟩ := h
  cases op with
  | add buf bits er t =>
      show QInv (QueueAdd s.q buf bits er t true).st
      unfold QueueAdd
      by_cases hg : hasFreshBit s.q.bitToInputs bits = true
      · rw [hg, if_pos rfl, if_pos rfl]
        constructor
        · exact keysOf_registerBits_nodup bits s.q.currentId _ hnd
        · intro b l hmem
          have hx := register_sound s.q.bitToInputs hnd
            ((s.q.inputs ++
              [⟨s.q.currentId, buf, freshBitsOf s.q.bitToInputs bits,
                bits, er, t⟩]) ++ s.q.processed)
            ⟨s.q.currentId, buf, freshBitsOf s.q.bitToInputs bits,
              bits, er, t⟩
            (by simp)
            (fun b2 l2 hm2 => (hsound b2 l2 hm2).mono
              (by intro x hx; simp at hx ⊢; tauto))
            b l hmem
          exact hx
      · rw [Bool.not_eq_true] at hg
        rw [hg]
        simp only [Bool.false_eq_true, if_false]
        exact ⟨hnd, hsound⟩
  | pop =>
      show QInv (stepQ s QOp.pop).q
      unfold stepQ QueuePop
      cases hl : s.q.inputs.getLast? with
      | none => exact ⟨hnd, hsound⟩
      | some it =>
          have hne : s.q.inputs ≠ [] := by
            intro he
            rw [he] at hl
            cases hl
          have hitl : it = s.q.inputs.getLast hne := by
            rw [List.getLast?_eq_getLast _ hne, Option.some.injEq] at hl
            exact hl.symm
          constructor
          · exact ((keysOf_purgeId_sublist s.q.bitToInputs it.id).nodup hnd)
          · intro b l hmem
            obtain ⟨v, hvm, hfil, hlne⟩ :=
              mem_purgeId s.q.bitToInputs it.id b l hmem
            have hv := hsound b v hvm
            refine ⟨hlne, ?_⟩
            intro id hid
            have hid2 : id ∈ v ∧ id ≠ it.id := by
              rw [hfil] at hid
              have h1 := List.of_mem_filter hid
              have h2 := List.mem_of_mem_filter hid
              simp at h1
              exact ⟨h2, h1⟩
            obtain ⟨x, hx, hxid, hxbit⟩ := hv.2 id hid2.1
            refine ⟨x, ?_, hxid, hxbit⟩
            rw [List.mem_append] at hx
            rcases hx with hx | hx
            · have hsplit : s.q.inputs =
                  s.q.inputs.dropLast ++ [s.q.inputs.getLast hne] :=
                (List.dropLast_append_getLast hne).symm
              rw [hsplit, List.mem_append] at hx
              rcases hx with hx | hx
              · simp
                left
                exact hx
              · exfalso
                simp at hx
                rw [hx, ← hitl] at hxid
                exact hid2.2 hxid.symm
            · simp
              right
              exact hx
  | fin n =>
      show QInv (stepQ s (QOp.fin n)).q
      simp only [stepQ]
      by_cases hlt : n < s.held.length
      · rw [dif_pos hlt]
        show QInv (QueueFinished s.q (s.held.get ⟨n, hlt⟩)).1
        unfold QueueFinished
        by_cases hg : hasFreshBit s.q.bitToInputs
            (s.held.get ⟨n, hlt⟩).allBits = true
        · rw [hg, if_pos rfl]
          constructor
          · exact keysOf_registerBits_nodup _ _ _ hnd
          · intro b l hmem
            exact register_sound s.q.bitToInputs hnd
              (s.q.inputs ++ (s.q.processed ++ [s.held.get ⟨n, hlt⟩]))
              (s.held.get ⟨n, hlt⟩)
              (by simp)
              (fun b2 l2 hm2 => (hsound b2 l2 hm2).mono
                (by intro x hx; simp at hx ⊢; tauto))
              b l hmem
        · rw [Bool.not_eq_true] at hg
          rw [hg]
          simp only [Bool.false_eq_true, if_false]
          exact ⟨hnd, hsound⟩
      · rw [dif_neg hlt]
        exact ⟨hnd, hsound⟩
  | newRound =>
      show QInv (QueueNewRound s.q)
      unfold QueueNewRound
      refine ⟨hnd, ?_⟩
      intro b l hmem
      exact (hsound b l hmem).mono (by intro x hx; simp at hx ⊢; tauto)

theorem runQ_inv (wd : String) (ops : List QOp) : QInv (runQ wd ops).q := by
  have hinit : QInv (initQ wd).q := by
    constructor
    · simp [initQ, keysOf]
    · intro b l hmem
      simp [initQ] at hmem
  unfold runQ
  generalize initQ wd = s0 at hinit ⊢
  induction ops generalizing s0 with
  | nil => exact hinit
  | cons op rest ih =>
      simp only [List.foldl_cons]
      exact ih (stepQ s0 op) (stepQ_preserves s0 op hinit)

/-- Claim C1: inverted-index soundness.  After any history of `Add`,
`Pop`, `Finished` and `NewRound` from the empty queue, every key of
`_bit_to_inputs` has a non-empty posting list, and every id in a
posting list belongs to an item currently in `inputs ++ processed`
whose coverage byte for that bit is non-zero. -/
theorem c1_inverted_index_soundness (wd : String) (ops : List QOp)
    (b : Nat) (l : List Nat)
    (hmem : (b, l) ∈ (runQ wd ops).q.bitToInputs) :
    l ≠ [] ∧ ∀ id ∈ l,
      ∃ it ∈ (runQ wd ops).q.inputs ++ (runQ wd ops).q.processed,
        it.id = id ∧ bitAt it.allBits b ≠ 0 :=
  (runQ_inv wd ops).2 b l hmem

/-- A concrete instance of C1: a single `Add` with coverage byte 1 set
yields the posting list `[0]` for bit 1, and the soundness conclusion
holds for it. -/
theorem c1_inverted_index_soundness_witness :
    ([0] : List Nat) ≠ [] ∧ ∀ id ∈ ([0] : List Nat),
      ∃ it ∈ (runQ "wd" [QOp.add "t" [0, 5] 0 0]).q.inputs ++
          (runQ "wd" [QOp.add "t" [0, 5] 0 0]).q.processed,
        it.id = id ∧ bitAt it.allBits 1 ≠ 0 :=
  c1_inverted_index_soundness "wd" [QOp.add "t" [0, 5] 0 0] 1 [0]
    (by decide)

/-- Claim C10: `Queue::Add` is not atomic on I/O error.  When the gate
passes but the corpus file cannot be created, `Add` throws
`unable_to_create_file` with `inputs`, `processed` and `current_id`
unchanged and nothing written, yet the fresh bits were already inserted
into `_bit_to_inputs` with `current_id` appended — so those posting
lists now hold an id that belongs to no item in `inputs` or
`processed`. -/
theorem c10_add_not_atomic (s : QueueState) (treeBuf : String)
    (allBits : List Nat) (er time : Nat)
    (hfresh : ∃ i, i < allBits.length ∧ bitAt allBits i ≠ 0 ∧
      findList s.bitToInputs i = none)
    (hid : ∀ it, it ∈ s.inputs ++ s.processed → it.id ≠ s.currentId) :
    (QueueAdd s treeBuf allBits er time false).err =
        some "unable_to_create_file" ∧
    (QueueAdd s treeBuf allBits er time false).ops = [] ∧
    (QueueAdd s treeBuf allBits er time false).st.inputs = s.inputs ∧
    (QueueAdd s treeBuf allBits er time false).st.processed = s.processed ∧
    (QueueAdd s treeBuf allBits er time false).st.currentId = s.currentId ∧
    (∀ i, bitAt allBits i ≠ 0 → findList s.bitToInputs i = none →
      findList (QueueAdd s treeBuf allBits er time false).st.bitToInputs i =
        some [s.currentId]) ∧
    (∃ b lst, findList
        (QueueAdd s treeBuf allBits er time false).st.bitToInputs b =
          some lst ∧ s.currentId ∈ lst) ∧
    (∀ it, it ∈ (QueueAdd s treeBuf allBits er time false).st.inputs ++
        (QueueAdd s treeBuf allBits er time false).st.processed →
      it.id ≠ s.currentId) := by
  have hg : hasFreshBit s.bitToInputs allBits = true :=
    (hasFreshBit_iff s.bitToInputs allBits).2 hfresh
  have hback : QueueAdd s treeBuf allBits er time false =
      { st := { s with
                  bitToInputs := registerBits allBits s.currentId
                    s.bitToInputs }
        ops := []
        err := some "unable_to_create_file" } := by
    unfold QueueAdd
    rw [hg, if_pos rfl]
    rfl
  rw [hback]
  refine ⟨rfl, rfl, rfl, rfl, rfl, ?_, ?_, ?_⟩
  · intro i hbit hnone
    show findList (registerBits allBits s.currentId s.bitToInputs) i =
      some [s.currentId]
    rw [findList_registerBits, if_pos hbit, hnone]
    rfl
  · obtain ⟨i, hlen, hbit, hnone⟩ := hfresh
    refine ⟨i, [s.currentId], ?_, by simp⟩
    show findList (registerBits allBits s.currentId s.bitToInputs) i =
      some [s.currentId]
    rw [findList_registerBits, if_pos hbit, hnone]
    rfl
  · intro it hit
    exact hid it hit

/-- A concrete instance of C10: the fresh bit 0 is indexed under the
about-to-be-used id 1 although the failing `Add` kept no item. -/
theorem c10_add_not_atomic_witness :
    (QueueAdd ⟨"wd", 1, [⟨0, "a", [2], [0, 0, 9], 0, 0⟩], [], [(2, [0])]⟩
        "t" [3] 0 0 false).err = some "unable_to_create_file" ∧
    (QueueAdd ⟨"wd", 1, [⟨0, "a", [2], [0, 0, 9], 0, 0⟩], [], [(2, [0])]⟩
        "t" [3] 0 0 false).ops = [] ∧
    (QueueAdd ⟨"wd", 1, [⟨0, "a", [2], [0, 0, 9], 0, 0⟩], [], [(2, [0])]⟩
        "t" [3] 0 0 false).st.inputs = [⟨0, "a", [2], [0, 0, 9], 0, 0⟩] ∧
    (QueueAdd ⟨"wd", 1, [⟨0, "a", [2], [0, 0, 9], 0, 0⟩], [], [(2, [0])]⟩
        "t" [3] 0 0 false).st.processed = [] ∧
    (QueueAdd ⟨"wd", 1, [⟨0, "a", [2], [0, 0, 9], 0, 0⟩], [], [(2, [0])]⟩
        "t" [3] 0 0 false).st.currentId = 1 ∧
    (∀ i, bitAt [3] i ≠ 0 →
      findList ([(2, [0])] : Index) i = none →
      findList (QueueAdd ⟨"wd", 1, [⟨0, "a", [2], [0, 0, 9], 0, 0⟩], [],
          [(2, [0])]⟩ "t" [3] 0 0 false).st.bitToInputs i = some [1]) ∧
    (∃ b lst, findList (QueueAdd ⟨"wd", 1,
        [⟨0, "a", [2], [0, 0, 9], 0, 0⟩], [], [(2, [0])]⟩
        "t" [3] 0 0 false).st.bitToInputs b = some lst ∧ (1 : Nat) ∈ lst) ∧
    (∀ it, it ∈ (QueueAdd ⟨"wd", 1, [⟨0, "a", [2], [0, 0, 9], 0, 0⟩], [],
          [(2, [0])]⟩ "t" [3] 0 0 false).st.inputs ++
        (QueueAdd ⟨"wd", 1, [⟨0, "a", [2], [0, 0, 9], 0, 0⟩], [],
          [(2, [0])]⟩ "t" [3] 0 0 false).st.processed →
      it.id ≠ 1) :=
  c10_add_not_atomic ⟨"wd", 1, [⟨0, "a", [2], [0, 0, 9], 0, 0⟩], [],
    [(2, [0])]⟩ "t" [3] 0 0
    ⟨0, by decide, by decide, by decide⟩ (by decide)

end FuzzufQueue

namespace FuzzufMutator

/-!
Shallow embedding of the tree mutation engine of
`src/algorithms/nautilus/grammartec/mutator.cpp`.

The `Tree`, `Context` and `TreeMutation` classes live outside the
provided sources, so their small read interface is modelled from the
spec (§3 "Tree", §4.1, §4.2): a tree is the pair of parallel preorder
sequences `rules`/`sizes`; `subtree_size(n)` reads `sizes[n]`; a
`TreeMutation` for "replace the subtree at `n` of `a` by tree `b`" is
the triple of rule slices before `n`, of `b`, and after the subtree of
`n`; materializing it appends those slices and fixes up the sizes of
the ancestors of `n` by the size difference.  `MinimizeTree` and
`MutRandomRecursion` themselves are translated from mutator.cpp.
-/

/-- Modelled from the spec: a derivation tree as its preorder parallel
arrays `rules[i]` (rule identifier at node `i`) and `sizes[i]` (subtree
size rooted at `i`). -/
structure TreeM where
  rules : List Nat
  sizes : List Nat
deriving DecidableEq

/-- Modelled from the spec: the read interface of the grammar context
used by the mutator: the left-hand-side nonterminal of a rule and the
fixpoint minimum expansion length of a nonterminal. -/
structure Ctx where
  ntOf : Nat → Nat
  minLen : Nat → Nat

/-- `tree.Size()`: number of preorder nodes. -/
def TreeM.size (t : TreeM) : Nat := t.rules.length

/-- `tree.SubTreeSize(n)`: the `sizes` entry of node `n`. -/
def subTreeSize (t : TreeM) (n : Nat) : Nat := t.sizes.getD n 0

/-- Modelled from the spec: the `TreeMutation` view handed to testers —
rules before the replaced subtree, replacement rules, rules after. -/
structure TMut where
  pre : List Nat
  repl : List Nat
  post : List Nat
deriving DecidableEq

/-- Modelled from the spec: `tree.MutateReplaceFromTree(n, b, 0)` where
the donor subtree is the whole tree `b`. -/
def mkMutation (a : TreeM) (n : Nat) (b : TreeM) : TMut :=
  ⟨a.rules.take n, b.rules, a.rules.drop (n + subTreeSize a n)⟩

/-- Modelled from the spec: materializing the mutation
(`TreeMutation::ToTree`): splice the donor arrays in place of the
subtree at `n` and grow every ancestor's size by the size difference. -/
def replaceTree (a : TreeM) (n : Nat) (b : TreeM) : TreeM :=
  let old := subTreeSize a n
  ⟨a.rules.take n ++ b.rules ++ a.rules.drop (n + old),
   ((List.range n).map (fun i =>
      if n < i + a.sizes.getD i 0 then a.sizes.getD i 0 + b.size - old
      else a.sizes.getD i 0))
     ++ b.sizes ++ a.sizes.drop (n + old)⟩

/-- One visit of the `MinimizeTree` loop, recorded for the run trace:
the index visited, the tree at that moment, the proposal (mutation and
the tester's verdict) when one was made, and the tree afterwards. -/
structure MinVisit where
  idx : Nat
  pre : TreeM
  prop : Option (TMut × Bool)
  post : TreeM
deriving DecidableEq

/-- The visit performed at index `i` of the current tree `t`
(mutator.cpp lines 60-74): when the subtree exceeds the grammar
minimum, generate the minimal replacement (`gen`, standing for
`GenerateFromNT` at budget `GetMinLenForNT`), test it, and commit on
acceptance. -/
def minVisit (ctx : Ctx) (gen : Nat → TreeM) (tester : TMut → Bool)
    (t : TreeM) (i : Nat) : MinVisit :=
  if ctx.minLen (ctx.ntOf (t.rules.getD i 0)) < subTreeSize t i then
    if tester (mkMutation t i (gen (ctx.ntOf (t.rules.getD i 0)))) then
      ⟨i, t, some (mkMutation t i (gen (ctx.ntOf (t.rules.getD i 0))), true),
        replaceTree t i (gen (ctx.ntOf (t.rules.getD i 0)))⟩
    else
      ⟨i, t, some (mkMutation t i (gen (ctx.ntOf (t.rules.getD i 0))), false),
        t⟩
  else ⟨i, t, none, t⟩

/-- Shallow embedding of the loop of `Mutator::MinimizeTree`
(mutator.cpp lines 57-81), instrumented with a visit trace.  `fuel`
bounds the number of iterations; `none` means the bound was hit, and
every theorem below is conditional on a completed run. -/
def minimizeGo (ctx : Ctx) (gen : Nat → TreeM) (tester : TMut → Bool)
    (endIdx : Nat) :
    Nat → TreeM → Nat → List MinVisit →
      Option (Bool × Nat × TreeM × List MinVisit)
  | 0, _, _, _ => none
  | fuel + 1, t, i, tr =>
      if i < t.size then
        let v := minVisit ctx gen tester t i
        if i + 1 = endIdx then some (false, i + 1, v.post, tr ++ [v])
        else minimizeGo ctx gen tester endIdx fuel v.post (i + 1) (tr ++ [v])
      else some (true, i, t, tr)

/-- `Mutator::MinimizeTree(tree, bits, ctx, start_index, end_index,
tester)`. -/
def minimizeTree (ctx : Ctx) (gen : Nat → TreeM) (tester : TMut → Bool)
    (t : TreeM) (startIdx endIdx fuel : Nat) :
    Option (Bool × Nat × TreeM × List MinVisit) :=
  minimizeGo ctx gen tester endIdx fuel t startIdx []

/-- The visits chain: each visit starts from the tree the previous one
left, beginning at `t0` and ending in `tF`. -/
def VisitChain (t0 : TreeM) : List MinVisit → TreeM → Prop
  | [], tF => tF = t0
  | v :: rest, tF => v.pre = t0 ∧ VisitChain v.post rest tF

/-- What a single recorded visit guarantees: a proposal is made exactly
when the node's subtree exceeds the grammar minimum, the proposal is
the minimal replacement at that node, the verdict is the tester's, and
the tree is changed exactly by the accepted commits. -/
def GateOk (ctx : Ctx) (gen : Nat → TreeM) (tester : TMut → Bool)
    (v : MinVisit) : Prop :=
  (v.prop = none →
    subTreeSize v.pre v.idx ≤
      ctx.minLen (ctx.ntOf (v.pre.rules.getD v.idx 0)) ∧
    v.post = v.pre) ∧
  (∀ m acc, v.prop = some (m, acc) →
    ctx.minLen (ctx.ntOf (v.pre.rules.getD v.idx 0)) <
      subTreeSize v.pre v.idx ∧
    m = mkMutation v.pre v.idx
      (gen (ctx.ntOf (v.pre.rules.getD v.idx 0))) ∧
    acc = tester m ∧
    v.post = (if acc then replaceTree v.pre v.idx
      (gen (ctx.ntOf (v.pre.rules.getD v.idx 0))) else v.pre))

theorem minVisit_gateOk (ctx : Ctx) (gen : Nat → TreeM)
    (tester : TMut → Bool) (t : TreeM) (i : Nat) :
    GateOk ctx gen tester (minVisit ctx gen tester t i) ∧
    (minVisit ctx gen tester t i).idx = i ∧
    (minVisit ctx gen tester t i).pre = t := by
  unfold minVisit GateOk
  by_cases hlt : ctx.minLen (ctx.ntOf (t.rules.getD i 0)) < subTreeSize t i
  · rw [if_pos hlt]
    by_cases hacc : tester (mkMutation t i
        (gen (ctx.ntOf (t.rules.getD i 0)))) = true
    · rw [if_pos hacc]
      refine ⟨⟨?_, ?_⟩, rfl, rfl⟩
      · intro hnone; cases hnone
      · intro m acc hsome
        simp only [Option.some.injEq, Prod.mk.injEq] at hsome
        obtain ⟨hm, hac⟩ := hsome
        subst hm; subst hac
        exact ⟨hlt, rfl, hacc.symm, by simp⟩
    · rw [Bool.not_eq_true] at hacc
      rw [hacc]
      simp only [Bool.false_eq_true, if_false]
      refine ⟨⟨?_, ?_⟩, by simp, by simp⟩
      · intro hnone; cases hnone
      · intro m acc hsome
        simp only [Option.some.injEq, Prod.mk.injEq] at hsome
        obtain ⟨hm, hac⟩ := hsome
        subst hm; subst hac
        exact ⟨hlt, rfl, hacc.symm, by simp⟩
  · rw [if_neg hlt]
    refine ⟨⟨?_, ?_⟩, rfl, rfl⟩
    · intro _; exact ⟨Nat.le_of_not_lt hlt, rfl⟩
    · intro m acc hsome; cases hsome

/-- Run characterization of `minimizeGo`, proven by induction on the
fuel with a general trace accumulator. -/
theorem minimizeGo_spec (ctx : Ctx) (gen : Nat → TreeM)
    (tester : TMut → Bool) (endIdx : Nat) :
    ∀ (fuel : Nat) (t : TreeM) (i : Nat) (tr0 : List MinVisit)
      (b : Bool) (iF : Nat) (tF : TreeM) (tr : List MinVisit),
      minimizeGo ctx gen tester endIdx fuel t i tr0 =
        some (b, iF, tF, tr) →
      ∃ trN, tr = tr0 ++ trN ∧
        VisitChain t trN tF ∧
        (∀ k (hk : k < trN.length), (trN.get ⟨k, hk⟩).idx = i + k) ∧
        (∀ v, v ∈ trN → GateOk ctx gen tester v) ∧
        (b = true → tF.size ≤ iF) ∧
        (b = false → iF = endIdx) := by
  intro fuel
  induction fuel with
  | zero =>
      intro t i tr0 b iF tF tr h
      cases h
  | succ fuel ih =>
      intro t i tr0 b iF tF tr h
      unfold minimizeGo at h
      by_cases hlt : i < t.size
      · rw [if_pos hlt] at h
        by_cases hend : i + 1 = endIdx
        · rw [if_pos hend] at h
          rw [Option.some.injEq, Prod.mk.injEq, Prod.mk.injEq,
            Prod.mk.injEq] at h
          obtain ⟨hb, hiF, htF, htr⟩ := h
          refine ⟨[minVisit ctx gen tester t i], htr.symm, ?_, ?_, ?_, ?_, ?_⟩
          · exact ⟨(minVisit_gateOk ctx gen tester t i).2.2, htF.symm⟩
          · intro k hk
            simp at hk
            subst hk
            simpa using (minVisit_gateOk ctx gen tester t i).2.1
          · intro v hv
            simp at hv
            subst hv
            exact (minVisit_gateOk ctx gen tester t i).1
          · intro hbt
            rw [hbt] at hb
            simp at hb
          · intro _
            rw [← hiF, hend]
        · rw [if_neg hend] at h
          obtain ⟨trN, htr, hchain, hidx, hgate, hbt, hbf⟩ :=
            ih (minVisit ctx gen tester t i).post (i + 1)
              (tr0 ++ [minVisit ctx gen tester t i]) b iF tF tr h
          refine ⟨minVisit ctx gen tester t i :: trN, ?_, ?_, ?_, ?_,
            hbt, hbf⟩
          · rw [htr]
            simp
          · exact ⟨(minVisit_gateOk ctx gen tester t i).2.2, hchain⟩
          · intro k hk
            cases k with
            | zero => simpa using (minVisit_gateOk ctx gen tester t i).2.1
            | succ k2 =>
                have hk2 : k2 < trN.length := by
                  simpa using Nat.lt_of_succ_lt_succ hk
                have := hidx k2 hk2
                simp only [List.get_cons_succ]
                rw [this]
                omega
          · intro v hv
            rw [List.mem_cons] at hv
            rcases hv with hv | hv
            · subst hv
              exact (minVisit_gateOk ctx gen tester t i).1
            · exact hgate v hv
      · rw [if_neg hlt] at h
        rw [Option.some.injEq, Prod.mk.injEq, Prod.mk.injEq,
          Prod.mk.injEq] at h
        obtain ⟨hb, hiF, htF, htr⟩ := h
        refine ⟨[], by rw [← htr]; simp, htF.symm, ?_, ?_, ?_, ?_⟩
        · intro k hk; simp at hk
        · intro v hv; simp at hv
        · intro _
          rw [← htF, ← hiF]
          exact Nat.le_of_not_lt hlt
        · intro hbf
          rw [hbf] at hb
          simp at hb

/-- Claim C6 (amended): characterization of a completed `MinimizeTree`
run.  The walk visits consecutive indices starting at `start_index`;
each visit proposes the grammar-minimal replacement exactly when the
node's subtree exceeds `min_len_for_nt`, commits it when the tester
accepts, and leaves the tree unchanged otherwise; the run returns
`true` when the whole tree was processed (final index at or past the
tree size) and `false` when `end_index` was reached first.  The
original final-tree postcondition is refuted by
`c6_minimize_tree_counterexample`. -/
theorem c6_minimize_tree_amended (ctx : Ctx) (gen : Nat → TreeM)
    (tester : TMut → Bool) (t0 : TreeM) (startIdx endIdx fuel : Nat)
    (b : Bool) (iF : Nat) (tF : TreeM) (tr : List MinVisit)
    (h : minimizeTree ctx gen tester t0 startIdx endIdx fuel =
      some (b, iF, tF, tr)) :
    VisitChain t0 tr tF ∧
    (∀ k (hk : k < tr.length), (tr.get ⟨k, hk⟩).idx = startIdx + k) ∧
    (∀ v, v ∈ tr → GateOk ctx gen tester v) ∧
    (b = true → tF.size ≤ iF) ∧
    (b = false → iF = endIdx) := by
  obtain ⟨trN, htr, hchain, hidx, hgate, hbt, hbf⟩ :=
    minimizeGo_spec ctx gen tester endIdx fuel t0 startIdx [] b iF tF tr h
  simp only [List.nil_append] at htr
  subst htr
  exact ⟨hchain, hidx, hgate, hbt, hbf⟩

/-- Grammar context of the counterexample: rule 0 is `R → A B`, rules
1 and 2 expand the nonterminal `A` (1 terminally, 2 recursively), rules
3 and 4 likewise for `B`; minimum expansion lengths 3, 1, 1. -/
def ctxC : Ctx :=
  ⟨fun r => if r = 0 then 0 else if r ≤ 2 then 1 else 2,
   fun nt => if nt = 0 then 3 else 1⟩

/-- Deterministic stand-in for `GenerateFromNT` at the minimal budget:
the unique minimal expansion of each nonterminal of `ctxC`. -/
def genC : Nat → TreeM :=
  fun nt =>
    if nt = 0 then ⟨[0, 1, 3], [3, 1, 1]⟩
    else if nt = 1 then ⟨[1], [1]⟩ else ⟨[3], [1]⟩

/-- Pure tester of the counterexample: it accepts exactly the proposal
made at node 3 during the run and the proposal that node 1 of the
*final* tree would get — the latter was different (hence rejected) when
node 1 was actually visited. -/
def testerC : TMut → Bool :=
  fun m =>
    if m = ⟨[0, 2, 1], [3], []⟩ then true
    else if m = ⟨[0], [1], [3]⟩ then true else false

/-- Initial tree of the counterexample: `R` over a two-node `A` subtree
and a two-node `B` subtree. -/
def t0C : TreeM := ⟨[0, 2, 1, 4, 3], [5, 2, 1, 2, 1]⟩

/-- Final tree of the counterexample run (node 3's `B` subtree was
minimized, node 1's `A` subtree was not). -/
def tFC : TreeM := ⟨[0, 2, 1, 3], [4, 2, 1, 1]⟩

/-- Claim C6's final postcondition is false on the code: this
`MinimizeTree` run returns `true`, yet node 1 of the final tree has a
subtree larger than its grammar minimum *and* the tester accepts the
minimal replacement at node 1 of the final tree (the tester rejected
the proposal node 1 received during the walk, whose context still held
the old subtree of node 3; the later commit at node 3 changed that
context). -/
theorem c6_minimize_tree_counterexample :
    (minimizeTree ctxC genC testerC t0C 0 100 10).map (fun r => r.1) =
      some true ∧
    (minimizeTree ctxC genC testerC t0C 0 100 10).map (fun r => r.2.2.1) =
      some tFC ∧
    ctxC.minLen (ctxC.ntOf (tFC.rules.getD 1 0)) < subTreeSize tFC 1 ∧
    testerC (mkMutation tFC 1 (genC (ctxC.ntOf (tFC.rules.getD 1 0)))) =
      true := by
  refine ⟨?_, ?_, ?_, ?_⟩ <;> decide

/-- A concrete instance of the amended C6: a one-node tree already at
its minimum is walked without any proposal and the run returns
`true`. -/
theorem c6_minimize_tree_amended_witness :
    VisitChain ⟨[1], [1]⟩ [⟨0, ⟨[1], [1]⟩, none, ⟨[1], [1]⟩⟩]
        ⟨[1], [1]⟩ ∧
    (∀ k (hk : k < [(⟨0, ⟨[1], [1]⟩, none, ⟨[1], [1]⟩⟩ : MinVisit)].length),
      ([(⟨0, ⟨[1], [1]⟩, none, ⟨[1], [1]⟩⟩ : MinVisit)].get ⟨k, hk⟩).idx =
        0 + k) ∧
    (∀ v, v ∈ [(⟨0, ⟨[1], [1]⟩, none, ⟨[1], [1]⟩⟩ : MinVisit)] →
      GateOk ctxC genC testerC v) ∧
    (true = true → TreeM.size ⟨[1], [1]⟩ ≤ 1) ∧
    (true = false → 1 = 100) :=
  c6_minimize_tree_amended ctxC genC testerC ⟨[1], [1]⟩ 0 100 5 true 1
    ⟨[1], [1]⟩ [⟨0, ⟨[1], [1]⟩, none, ⟨[1], [1]⟩⟩] (by decide)

/-- Outcome of `Mutator::MutRandomRecursion` (mutator.cpp lines
242-320) for one RNG draw: the intermediate quantities in the source's
naming (`max_len_of_recursions`, `recursion_len_pre`,
`recursion_len_total`, `recursion_len_post`, `num_of_recursions`,
`postfix`), the constructed recursion tree, and the mutation proposed
to the tester. -/
structure RecOut where
  maxLen : Nat
  lenPre : Nat
  lenTotal : Nat
  lenPost : Nat
  num : Nat
  sfx : Nat
  recTree : TreeM
  tmut : TMut

/-- Shallow embedding of `Mutator::MutRandomRecursion` for a chosen
recursion pair `(rec0, rec1)` and RNG draw `k` (the source draws
`Random(1, 10)` and sets `max_len = 2 << k`).  The three loops filling
`rules_new`/`sizes_new` become `List.range` maps, and the size
adjustment loop only touches the first `num * lenPre` entries. -/
def mutRandomRecursion (t : TreeM) (rec0 rec1 k : Nat) : RecOut :=
  let maxLen := 2 <<< k
  let lenPre := rec1 - rec0
  let lenTotal := subTreeSize t rec0 - subTreeSize t rec1
  let lenPost := lenTotal - lenPre
  let num := maxLen / lenTotal
  let sfx := subTreeSize t rec1
  let rulesNew :=
    ((List.range (num * lenPre)).map fun i =>
      t.rules.getD (rec0 + i % lenPre) 0)
    ++ ((List.range sfx).map fun i => t.rules.getD (rec1 + i) 0)
    ++ ((List.range (num * lenPost)).map fun i =>
      t.rules.getD (rec1 + sfx + i % lenPost) 0)
  let sizesHead :=
    ((List.range (num * lenPre)).map fun i =>
      t.sizes.getD (rec0 + i % lenPre) 0)
    ++ ((List.range sfx).map fun i => t.sizes.getD (rec1 + i) 0)
  let sizesAdj := (List.range sizesHead.length).map fun i =>
    if i < num * lenPre ∧ lenPre ≤ sizesHead.getD i 0 then
      sizesHead.getD i 0 + (num - i / lenPre - 1) * lenTotal
    else sizesHead.getD i 0
  let sizesNew := sizesAdj ++ ((List.range (num * lenPost)).map fun i =>
    t.sizes.getD (rec1 + sfx + i % lenPost) 0)
  ⟨maxLen, lenPre, lenTotal, lenPost, num, sfx, ⟨rulesNew, sizesNew⟩,
   mkMutation t rec1 ⟨rulesNew, sizesNew⟩⟩

/-- Claim C7: size law of `MutRandomRecursion`.  For every tree, every
well-formed recursion pair (`rec0` a proper ancestor of `rec1`, so the
region lengths are non-negative) and every draw `k ∈ [1,10]`, the
nesting factor is `N = 2^(1+k) ∈ [4, 2048]`, the repetition count is
`N / total` by integer division (at least 1 whenever `total ≤ N`), and
the replacement proposed to the tester has exactly
`reps·pre + postfix + reps·post` entries. -/
theorem c7_recursion_size_law (t : TreeM) (rec0 rec1 k : Nat)
    (hk1 : 1 ≤ k) (hk2 : k ≤ 10) (h01 : rec0 < rec1)
    (hss : subTreeSize t rec1 < subTreeSize t rec0)
    (hnest : rec1 - rec0 ≤ subTreeSize t rec0 - subTreeSize t rec1) :
    (mutRandomRecursion t rec0 rec1 k).maxLen = 2 ^ (1 + k) ∧
    4 ≤ (mutRandomRecursion t rec0 rec1 k).maxLen ∧
    (mutRandomRecursion t rec0 rec1 k).maxLen ≤ 2048 ∧
    (mutRandomRecursion t rec0 rec1 k).num =
      (mutRandomRecursion t rec0 rec1 k).maxLen /
        (mutRandomRecursion t rec0 rec1 k).lenTotal ∧
    ((mutRandomRecursion t rec0 rec1 k).lenTotal ≤
        (mutRandomRecursion t rec0 rec1 k).maxLen →
      1 ≤ (mutRandomRecursion t rec0 rec1 k).num) ∧
    (mutRandomRecursion t rec0 rec1 k).tmut.repl.length =
      (mutRandomRecursion t rec0 rec1 k).num *
          (mutRandomRecursion t rec0 rec1 k).lenPre +
        (mutRandomRecursion t rec0 rec1 k).sfx +
        (mutRandomRecursion t rec0 rec1 k).num *
          (mutRandomRecursion t rec0 rec1 k).lenPost := by
  have hml : (mutRandomRecursion t rec0 rec1 k).maxLen = 2 * 2 ^ k := by
    simp [mutRandomRecursion, Nat.shiftLeft_eq]
  have htot : 0 < subTreeSize t rec0 - subTreeSize t rec1 :=
    Nat.sub_pos_of_lt hss
  refine ⟨?_, ?_, ?_, rfl, ?_, ?_⟩
  · rw [hml, pow_add, pow_one]
  · rw [hml]
    have h2 : 2 ≤ 2 ^ k := by
      calc 2 = 2 ^ 1 := (pow_one 2).symm
      _ ≤ 2 ^ k := Nat.pow_le_pow_right (by norm_num) hk1
    omega
  · rw [hml]
    have h2 : 2 ^ k ≤ 2 ^ 10 := Nat.pow_le_pow_right (by norm_num) hk2
    norm_num at h2 ⊢
    omega
  · intro hle
    show 1 ≤ (mutRandomRecursion t rec0 rec1 k).maxLen /
      (subTreeSize t rec0 - subTreeSize t rec1)
    rw [Nat.one_le_div_iff htot]
    exact hle
  · show (((List.range _).map _) ++ ((List.range _).map _)
      ++ ((List.range _).map _)).length = _
    simp [mutRandomRecursion]
    omega

/-- A concrete instance of C7: the two-level `A` recursion of `ctxC`
with draw `k = 1` expands to `4·1 + 2 + 4·0 = 6` entries. -/
theorem c7_recursion_size_law_witness :
    (mutRandomRecursion ⟨[2, 2, 1], [3, 2, 1]⟩ 0 1 1).maxLen = 2 ^ (1 + 1) ∧
    4 ≤ (mutRandomRecursion ⟨[2, 2, 1], [3, 2, 1]⟩ 0 1 1).maxLen ∧
    (mutRandomRecursion ⟨[2, 2, 1], [3, 2, 1]⟩ 0 1 1).maxLen ≤ 2048 ∧
    (mutRandomRecursion ⟨[2, 2, 1], [3, 2, 1]⟩ 0 1 1).num =
      (mutRandomRecursion ⟨[2, 2, 1], [3, 2, 1]⟩ 0 1 1).maxLen /
        (mutRandomRecursion ⟨[2, 2, 1], [3, 2, 1]⟩ 0 1 1).lenTotal ∧
    ((mutRandomRecursion ⟨[2, 2, 1], [3, 2, 1]⟩ 0 1 1).lenTotal ≤
        (mutRandomRecursion ⟨[2, 2, 1], [3, 2, 1]⟩ 0 1 1).maxLen →
      1 ≤ (mutRandomRecursion ⟨[2, 2, 1], [3, 2, 1]⟩ 0 1 1).num) ∧
    (mutRandomRecursion ⟨[2, 2, 1], [3, 2, 1]⟩ 0 1 1).tmut.repl.length =
      (mutRandomRecursion ⟨[2, 2, 1], [3, 2, 1]⟩ 0 1 1).num *
          (mutRandomRecursion ⟨[2, 2, 1], [3, 2, 1]⟩ 0 1 1).lenPre +
        (mutRandomRecursion ⟨[2, 2, 1], [3, 2, 1]⟩ 0 1 1).sfx +
        (mutRandomRecursion ⟨[2, 2, 1], [3, 2, 1]⟩ 0 1 1).num *
          (mutRandomRecursion ⟨[2, 2, 1], [3, 2, 1]⟩ 0 1 1).lenPost :=
  c7_recursion_size_law ⟨[2, 2, 1], [3, 2, 1]⟩ 0 1 1 (by decide) (by decide)
    (by decide) (by decide) (by decide)

end FuzzufMutator

namespace FuzzufVUzzer

/-!
Shallow embedding of `VUzzer::PerformDryRun` and `VUzzer::FillSeeds`
(`src/algorithms/vuzzer/vuzzer.cpp`).  The executor, the coverage
parser `ParseBBCov`, the mutators, `ERROR` and
`VUzzerState::AddToQueue` live outside the provided sources and are
modelled from the spec: an execution is represented by the list of
basic-block addresses it covers (the keys of the parsed `bb_cov` map);
`ERROR` aborts fatally; `AddToQueue` files the seed under the current
`queued_paths` counter and advances it.  The random choices (seed
picks, `TotallyRandom` bytes, the crossover coin) are absorbed into the
RNG-trace parameters `randCov` and `dec`.
-/

/-- `std::set<u64>::insert`: membership-preserving insertion. -/
def insertSet (l : List Nat) (a : Nat) : List Nat :=
  if a ∈ l then l else l ++ [a]

/-- The per-seed loop body of the dry run's first phase: insert every
covered basic block into `good_bbs`. -/
def addCov (g : List Nat) (cov : List Nat) : List Nat :=
  cov.foldl insertSet g

/-- The body of one of the 60 randomized executions: every observed
basic block not in `good_bbs` goes into `ehb`. -/
def ehbStep (good e cov : List Nat) : List Nat :=
  cov.foldl (fun e2 a => if a ∈ good then e2 else insertSet e2 a) e

/-- Shallow embedding of `VUzzer::PerformDryRun` (vuzzer.cpp lines
56-115).  `seeds` carries, per pending-queue entry, the basic blocks
its execution covers; `randCov i` the blocks covered by the `i`-th of
the 60 randomized executions.  Modelled from the spec: `ERROR` on
fewer than 3 seeds aborts fatally (`Except.error`); the taint phase
only fills per-testcase maps consumed later and is not part of the
claims, so the result is the pair (`good_bbs`, `ehb`). -/
def performDryRun (seeds : List (List Nat)) (randCov : Nat → List Nat)
    (good0 ehb0 : List Nat) : Except Unit (List Nat × List Nat) :=
  if seeds.length < 3 then Except.error ()
  else
    Except.ok (seeds.foldl addCov good0,
      (List.range 60).foldl
        (fun e i => ehbStep (seeds.foldl addCov good0) e (randCov i)) ehb0)

theorem mem_insertSet (l : List Nat) (a b : Nat) :
    b ∈ insertSet l a ↔ b ∈ l ∨ b = a := by
  unfold insertSet
  by_cases h : a ∈ l
  · rw [if_pos h]
    constructor
    · intro hb; left; exact hb
    · rintro (hb | hb)
      · exact hb
      · rw [hb]; exact h
  · rw [if_neg h]
    simp

theorem mem_addCov (cov : List Nat) :
    ∀ (g : List Nat) (b : Nat), b ∈ addCov g cov ↔ b ∈ g ∨ b ∈ cov := by
  induction cov with
  | nil => intro g b; simp [addCov]
  | cons a rest ih =>
      intro g b
      unfold addCov at ih ⊢
      rw [List.foldl_cons, ih, mem_insertSet]
      simp [or_assoc]

theorem mem_foldl_addCov (seeds : List (List Nat)) :
    ∀ (g : List Nat) (b : Nat),
      b ∈ seeds.foldl addCov g ↔ b ∈ g ∨ ∃ cov ∈ seeds, b ∈ cov := by
  induction seeds with
  | nil => intro g b; simp
  | cons cov rest ih =>
      intro g b
      rw [List.foldl_cons, ih, mem_addCov]
      simp [or_assoc]

theorem mem_ehbStep (good cov : List Nat) :
    ∀ (e : List Nat) (b : Nat),
      b ∈ ehbStep good e cov ↔ b ∈ e ∨ (b ∈ cov ∧ b ∉ good) := by
  induction cov with
  | nil => intro e b; simp [ehbStep]
  | cons a rest ih =>
      intro e b
      unfold ehbStep at ih ⊢
      rw [List.foldl_cons]
      by_cases hg : a ∈ good
      · rw [if_pos hg, ih]
        constructor
        · rintro (hb | hb)
          · left; exact hb
          · right; exact ⟨List.mem_cons_of_mem a hb.1, hb.2⟩
        · rintro (hb | ⟨hb1, hb2⟩)
          · left; exact hb
          · rw [List.mem_cons] at hb1
            rcases hb1 with hb1 | hb1
            · exfalso; rw [hb1] at hb2; exact hb2 hg
            · right; exact ⟨hb1, hb2⟩
      · rw [if_neg hg, ih, mem_insertSet]
        constructor
        · rintro ((hb | hb) | hb)
          · left; exact hb
          · right
            subst hb
            exact ⟨List.mem_cons_self b rest, hg⟩
          · right; exact ⟨List.mem_cons_of_mem a hb.1, hb.2⟩
        · rintro (hb | ⟨hb1, hb2⟩)
          · left; left; exact hb
          · rw [List.mem_cons] at hb1
            rcases hb1 with hb1 | hb1
            · left; right; exact hb1
            · right; exact ⟨hb1, hb2⟩

theorem mem_foldl_ehb (good : List Nat) (randCov : Nat → List Nat)
    (idxs : List Nat) :
    ∀ (e : List Nat) (b : Nat),
      b ∈ idxs.foldl (fun e2 i => ehbStep good e2 (randCov i)) e ↔
        b ∈ e ∨ ∃ i ∈ idxs, b ∈ randCov i ∧ b ∉ good := by
  induction idxs with
  | nil => intro e b; simp
  | cons i rest ih =>
      intro e b
      rw [List.foldl_cons, ih, mem_ehbStep]
      simp [or_assoc]

/-- Claim C8: `VUzzer::PerformDryRun` from the fresh state.  Fewer than
3 seeds fail fatally; otherwise `good_bbs` becomes exactly the union of
the blocks covered by the seed executions, every block of the 60
randomized executions outside `good_bbs` lands in `ehb`, and no block
of `good_bbs` is ever in `ehb`. -/
theorem c8_dry_run (seeds : List (List Nat)) (randCov : Nat → List Nat) :
    (seeds.length < 3 →
      performDryRun seeds randCov [] [] = Except.error ()) ∧
    (3 ≤ seeds.length →
      ∃ good ehb,
        performDryRun seeds randCov [] [] = Except.ok (good, ehb) ∧
        (∀ b, b ∈ good ↔ ∃ cov ∈ seeds, b ∈ cov) ∧
        (∀ i, i < 60 → ∀ b, b ∈ randCov i → b ∉ good → b ∈ ehb) ∧
        (∀ b, b ∈ ehb → b ∉ good)) := by
  constructor
  · intro hlt
    unfold performDryRun
    rw [if_pos hlt]
  · intro hge
    have hnlt : ¬ seeds.length < 3 := Nat.not_lt.2 hge
    refine ⟨seeds.foldl addCov [],
      (List.range 60).foldl
        (fun e i => ehbStep (seeds.foldl addCov []) e (randCov i)) [],
      ?_, ?_, ?_, ?_⟩
    · unfold performDryRun
      rw [if_neg hnlt]
    · intro b
      rw [mem_foldl_addCov]
      simp
    · intro i hi b hb hng
      rw [mem_foldl_ehb]
      right
      exact ⟨i, List.mem_range.2 hi, hb, hng⟩
    · intro b hb
      rw [mem_foldl_ehb] at hb
      rcases hb with hb | ⟨i, _, _, hng⟩
      · cases hb
      · exact hng

/-- A concrete instance of C8: three seeds covering blocks 1, 2, 3 and
one randomized execution observing the new block 9. -/
theorem c8_dry_run_witness :
    3 ≤ ([[1], [2], [3]] : List (List Nat)).length ∧
    ∃ good ehb,
      performDryRun [[1], [2], [3]]
          (fun i => if i = 0 then [1, 9] else []) [] [] =
        Except.ok (good, ehb) ∧
      (∀ b, b ∈ good ↔ ∃ cov ∈ ([[1], [2], [3]] : List (List Nat)), b ∈ cov) ∧
      (∀ i, i < 60 → ∀ b,
        b ∈ (if i = 0 then [1, 9] else ([] : List Nat)) → b ∉ good →
          b ∈ ehb) ∧
      (∀ b, b ∈ ehb → b ∉ good) :=
  ⟨by decide,
   (c8_dry_run [[1], [2], [3]] (fun i => if i = 0 then [1, 9] else [])).2
     (by decide)⟩

/-- VUzzer corpus entry path `out_dir/queue/id:NNNNNN`
(six-digit zero-padded `queued_paths`). -/
def vuzzerPath (outDir : String) (qp : Nat) : String :=
  outDir ++ "/queue/id:" ++ FuzzufQueue.padNum 6 qp

/-- Shallow embedding of the loop of `VUzzer::FillSeeds` (vuzzer.cpp
lines 131-192).  `dec iter` is the outcome of the crossover coin
`distr_cut(eng) > 1 - fill_seeds_with_crossover_prob` at iteration
`iter`; the crossover branch files two children under consecutive
`queued_paths` ids and advances the count by two, the other branch
files one mutated seed.  Modelled from the spec: `AddToQueue` writes to
`out_dir/queue/id:NNNNNN` with the current `queued_paths` counter and
increments it.  Returns the filed paths and the final counter. -/
def fillSeedsGo (dec : Nat → Bool) (outDir : String) (size : Nat)
    (sz qp iter : Nat) : List String × Nat :=
  if sz < size then
    if dec iter ∧ size - sz > 1 then
      (vuzzerPath outDir qp :: vuzzerPath outDir (qp + 1) ::
        (fillSeedsGo dec outDir size (sz + 2) (qp + 2) (iter + 1)).1,
       (fillSeedsGo dec outDir size (sz + 2) (qp + 2) (iter + 1)).2)
    else
      (vuzzerPath outDir qp ::
        (fillSeedsGo dec outDir size (sz + 1) (qp + 1) (iter + 1)).1,
       (fillSeedsGo dec outDir size (sz + 1) (qp + 1) (iter + 1)).2)
  else ([], qp)
termination_by size - sz
decreasing_by
  all_goals omega

/-- `VUzzer::FillSeeds(state, size)` started with `queued_paths =
qp0`. -/
def fillSeeds (dec : Nat → Bool) (outDir : String) (size qp0 : Nat) :
    List String × Nat :=
  fillSeedsGo dec outDir size 0 qp0 0

theorem fillSeedsGo_spec (dec : Nat → Bool) (outDir : String)
    (size : Nat) :
    ∀ (n sz qp iter : Nat), size - sz = n →
      (fillSeedsGo dec outDir size sz qp iter).1.length = size - sz ∧
      (∀ j, j < size - sz →
        (fillSeedsGo dec outDir size sz qp iter).1.getD j "" =
          vuzzerPath outDir (qp + j)) ∧
      (fillSeedsGo dec outDir size sz qp iter).2 = qp + (size - sz) := by
  intro n
  induction n using Nat.strong_induction_on with
  | _ n ih =>
      intro sz qp iter hn
      rw [fillSeedsGo.eq_def]
      by_cases hlt : sz < size
      · rw [if_pos hlt]
        by_cases hbr : dec iter ∧ size - sz > 1
        · rw [if_pos hbr]
          have hm : size - (sz + 2) < n := by omega
          obtain ⟨hlen, hget, hqp⟩ := ih _ hm (sz + 2) (qp + 2) (iter + 1) rfl
          refine ⟨?_, ?_, ?_⟩
          · simp only [List.length_cons, hlen]
            omega
          · intro j hj
            cases j with
            | zero => simp
            | succ j1 =>
                cases j1 with
                | zero => simp
                | succ j2 =>
                    have hj2 : j2 < size - (sz + 2) := by omega
                    have hv := hget j2 hj2
                    simp only [List.getD_cons_succ]
                    rw [hv]
                    congr 1
                    omega
          · simp only [hqp]
            omega
        · rw [if_neg hbr]
          have hm : size - (sz + 1) < n := by omega
          obtain ⟨hlen, hget, hqp⟩ := ih _ hm (sz + 1) (qp + 1) (iter + 1) rfl
          refine ⟨?_, ?_, ?_⟩
          · simp only [List.length_cons, hlen]
            omega
          · intro j hj
            cases j with
            | zero => simp
            | succ j2 =>
                have hj2 : j2 < size - (sz + 1) := by omega
                have hv := hget j2 hj2
                simp only [List.getD_cons_succ]
                rw [hv]
                congr 1
                omega
          · simp only [hqp]
            omega
      · rw [if_neg hlt]
        refine ⟨?_, ?_, ?_⟩
        · simp
          omega
        · intro j hj
          omega
        · simp
          omega

/-- Claim C9: `VUzzer::FillSeeds` terminates and enqueues exactly
`size` new seeds for every target and every RNG trace (the crossover
branch, filing two children, is guarded by `size - sz > 1`, so the
count never overshoots), and the `j`-th filed seed lies under
`out_dir/queue/id:NNNNNN` with the six-digit zero-padded id
`qp0 + j` drawn from the `queued_paths` counter. -/
theorem c9_fill_seeds (dec : Nat → Bool) (outDir : String)
    (size qp0 : Nat) :
    (fillSeeds dec outDir size qp0).1.length = size ∧
    (∀ j, j < size →
      (fillSeeds dec outDir size qp0).1.getD j "" =
        vuzzerPath outDir (qp0 + j)) ∧
    (fillSeeds dec outDir size qp0).2 = qp0 + size := by
  obtain ⟨h1, h2, h3⟩ :=
    fillSeedsGo_spec dec outDir size (size - 0) 0 qp0 0 rfl
  simp only [Nat.sub_zero] at h1 h2 h3
  exact ⟨h1, h2, h3⟩

/-- A concrete instance of C9: three seeds filed under ids 7, 8, 9. -/
theorem c9_fill_seeds_witness :
    (fillSeeds (fun i => decide (i % 2 = 0)) "out" 3 7).1.length = 3 ∧
    (∀ j, j < 3 →
      (fillSeeds (fun i => decide (i % 2 = 0)) "out" 3 7).1.getD j "" =
        vuzzerPath "out" (7 + j)) ∧
    (fillSeeds (fun i => decide (i % 2 = 0)) "out" 3 7).2 = 7 + 3 :=
  c9_fill_seeds (fun i => decide (i % 2 = 0)) "out" 3 7

end FuzzufVUzzer
